import Mathlib

/-!
Verification development for the LegalPDF repository (a React/TypeScript
browser application).  The definitions below are shallow embeddings of the
functions in `src/App.tsx` and `src/services/pdfService.ts`:

* the extraction-result aggregator (the `grouped` fold appearing in
  `processFileForExtraction`, `processModalityForOcr` and
  `analyzeWorkspaceFile`);
* the PDF splitting loop `splitPdf`;
* the application state and the operations `stopAnalysis`,
  `toggleFileSelection`, `toggleAllSelection`, `analyzeWorkspaceFile`,
  `processFileForExtraction`, `analyzeBatchSequential`, and the history
  load/save effects.

JavaScript objects used as string-keyed dictionaries are embedded as
association lists kept in insertion order (property assignment updates an
existing key in place, otherwise appends), and property enumeration
(`Object.keys` / `Object.entries`) follows the ECMAScript ordinary-object
rule: array-index keys first in ascending numeric order, then the remaining
string keys in insertion order.

React `useState` setters and `useRef` mutations are both modelled as
immediate updates of one shared application state record; `await` points of
the async functions are modelled as explicit interleaving points at which a
list of concurrent user operations may run.
-/

namespace LegalPDF

/-- `src/types.ts`: one case-number/venue pair as returned by extraction. -/
structure LegalProcess where
  foro : String
  processo : String
deriving DecidableEq, Repr

/-- The `GroupedProcesses` dictionary (`{ [foro: string]: string[] }`),
embedded as an association list in property insertion order. -/
abbrev Grouped := List (String × List String)

/-- The own property names of `Object.prototype` (ES2023), every one of
whose values is truthy (all are functions except the `__proto__` accessor,
which returns an object).  A property read on a plain object literal falls
through to these when the key is not an own property. -/
def protoKeys : List String :=
  ["constructor", "hasOwnProperty", "isPrototypeOf", "propertyIsEnumerable",
   "toLocaleString", "toString", "valueOf", "__proto__",
   "__defineGetter__", "__defineSetter__", "__lookupGetter__",
   "__lookupSetter__"]

/-- One step of the aggregation fold in `src/App.tsx`
(`if (!grouped[p.foro]) grouped[p.foro] = []; grouped[p.foro].push(p.processo)`)
with full plain-object semantics.  The read `grouped[p.foro]` sees the own
property when present (always an array, truthy, so the init is skipped and
`.push` succeeds, updating the key in place); for an absent own key it falls
through to `Object.prototype`: a key naming an inherited member reads a
truthy value, so the init is skipped and `grouped[p.foro].push(...)` throws
a TypeError (`none`); any other absent key reads `undefined` (falsy), is
initialised to `[]` — appended at the end of the insertion order — and
pushed to. -/
def insertProcess : Grouped → LegalProcess → Option Grouped
  | [], p =>
    if p.foro ∈ protoKeys then none
    else some [(p.foro, [p.processo])]
  | (k, v) :: rest, p =>
    if k = p.foro then some ((k, v ++ [p.processo]) :: rest)
    else (insertProcess rest p).map (fun g => (k, v) :: g)

/-- The aggregation step of `src/App.tsx` (lines 237-243, 298-304):
fold the flat extraction result into the `grouped` object, starting from
`{}`; `none` propagates a TypeError thrown by a `.push` on an inherited
`Object.prototype` value.  The surrounding
`if (extracted.processes && length > 0)` guard of the source is
behaviourally identical to folding the empty list. -/
def groupProcessesFrom (g : Grouped) : List LegalProcess → Option Grouped
  | [] => some g
  | p :: rest =>
    match insertProcess g p with
    | none => none
    | some g2 => groupProcessesFrom g2 rest

def groupProcesses (ps : List LegalProcess) : Option Grouped :=
  groupProcessesFrom [] ps

/-- The value of one fold step in the non-throwing case (the targeted key
is an own property, or absent and not an `Object.prototype` name); proved
equal to `insertProcess` under that side condition in
`insertProcess_eq_ok`. -/
def insertProcessOk : Grouped → LegalProcess → Grouped
  | [], p => [(p.foro, [p.processo])]
  | (k, v) :: rest, p =>
    if k = p.foro then (k, v ++ [p.processo]) :: rest
    else (k, v) :: insertProcessOk rest p

/-- The value of the whole aggregation when no record throws. -/
def groupProcessesOk (ps : List LegalProcess) : Grouped :=
  ps.foldl insertProcessOk []

/-- ECMAScript array-index test: the key is the canonical decimal string of
an integer `n` with `0 ≤ n < 2^32 - 1` (no leading zeros except `"0"`). -/
def digitsToNat (s : String) : Nat :=
  s.data.foldl (fun n c => n * 10 + (c.toNat - 48)) 0

def isArrayIndexKey (s : String) : Bool :=
  (match s.data with
   | [] => false
   | c :: cs =>
     (c == '0' && cs.isEmpty)
       || (c.isDigit && !(c == '0') && cs.all (fun d => d.isDigit)))
    && digitsToNat s < 4294967295

/-- Insertion sort step used to order array-index keys numerically. -/
def insertByIndex (k : String) : List String → List String
  | [] => [k]
  | x :: xs => if digitsToNat k ≤ digitsToNat x then k :: x :: xs else x :: insertByIndex k xs

def sortByIndex (ks : List String) : List String :=
  ks.foldr insertByIndex []

/-- `Object.keys` enumeration order on an ordinary JS object: array-index
keys in ascending numeric order first, then all other string keys in
insertion order. -/
def jsEnumKeys (g : Grouped) : List String :=
  let ks := g.map Prod.fst
  sortByIndex (ks.filter (fun k => isArrayIndexKey k))
    ++ ks.filter (fun k => !(isArrayIndexKey k))

/-- Key order of the aggregated mapping as every consumer of the code
observes it (`Object.entries(results)`, `Object.keys(data)`), when the
aggregation did not throw. -/
def groupedKeys (ps : List LegalProcess) : Option (List String) :=
  (groupProcesses ps).map jsEnumKeys

/-- The value sequence stored under a key (absent key reads as `[]`):
the property read `results[f]` on the embedded object. -/
def valuesOf : Grouped → String → List String
  | [], _ => []
  | (k, v) :: rest, f => if k = f then v else valuesOf rest f

/-- Modelled from the spec claim wording: the order of first occurrence of
each `foro` in the input sequence.  Used to compare the code's key order
against the claim. -/
def firstOccur (l : List String) : List String :=
  l.foldl (fun acc x => if x ∈ acc then acc else acc ++ [x]) []

theorem valuesOf_insertProcess (g : Grouped) (p : LegalProcess) (f : String) :
    valuesOf (insertProcessOk g p) f
      = valuesOf g f ++ (if p.foro = f then [p.processo] else []) := by
  induction g with
  | nil =>
    by_cases h : p.foro = f <;> simp [insertProcessOk, valuesOf, h]
  | cons e rest ih =>
    obtain ⟨k, v⟩ := e
    by_cases hk : k = p.foro
    · subst hk
      by_cases hf : p.foro = f <;> simp [insertProcessOk, valuesOf, hf]
    · by_cases hf : k = f
      · have hfp : ¬f = p.foro := fun h => hk (hf.trans h)
        have hpf : ¬p.foro = f := fun h => hfp h.symm
        simp [insertProcessOk, valuesOf, hk, hf, hfp, hpf]
      · simp [insertProcessOk, valuesOf, hk, hf, ih]

theorem valuesOf_foldl (ps : List LegalProcess) (g : Grouped) (f : String) :
    valuesOf (ps.foldl insertProcessOk g) f
      = valuesOf g f ++ (ps.filter (fun p => p.foro = f)).map (·.processo) := by
  induction ps generalizing g with
  | nil => simp
  | cons p rest ih =>
    by_cases h : p.foro = f
    · simp [List.foldl_cons, ih, valuesOf_insertProcess, h]
    · simp [List.foldl_cons, ih, valuesOf_insertProcess, h]

/-- The value sequence of every key is exactly the sub-sequence of
`processo` values carrying that `foro`, in original input order. -/
theorem valuesOf_groupProcesses (ps : List LegalProcess) (f : String) :
    valuesOf (groupProcessesOk ps) f
      = (ps.filter (fun p => p.foro = f)).map (·.processo) := by
  simpa [groupProcessesOk, valuesOf] using valuesOf_foldl ps [] f

theorem keys_insertProcess (g : Grouped) (p : LegalProcess) :
    (insertProcessOk g p).map Prod.fst
      = if p.foro ∈ g.map Prod.fst then g.map Prod.fst
        else g.map Prod.fst ++ [p.foro] := by
  induction g with
  | nil => simp [insertProcessOk]
  | cons e rest ih =>
    obtain ⟨k, v⟩ := e
    by_cases hk : k = p.foro
    · subst hk
      simp [insertProcessOk]
    · by_cases hm : p.foro ∈ rest.map Prod.fst <;>
        simp [insertProcessOk, hk, Ne.symm hk, hm, ih]

theorem keys_foldl (ps : List LegalProcess) (g : Grouped) :
    (ps.foldl insertProcessOk g).map Prod.fst
      = (ps.map (·.foro)).foldl
          (fun acc x => if x ∈ acc then acc else acc ++ [x]) (g.map Prod.fst) := by
  induction ps generalizing g with
  | nil => simp
  | cons p rest ih =>
    simp only [List.foldl_cons, List.map_cons, ih, keys_insertProcess]

/-- Insertion order of the keys of the aggregated object is the order of
first occurrence of each `foro`. -/
theorem keys_groupProcesses (ps : List LegalProcess) :
    (groupProcessesOk ps).map Prod.fst = firstOccur (ps.map (·.foro)) := by
  simpa [groupProcessesOk, firstOccur] using keys_foldl ps []

theorem insertProcess_eq_ok (g : Grouped) (p : LegalProcess)
    (hp : ¬p.foro ∈ protoKeys) :
    insertProcess g p = some (insertProcessOk g p) := by
  induction g with
  | nil => simp [insertProcess, insertProcessOk, hp]
  | cons e rest ih =>
    obtain ⟨k, v⟩ := e
    by_cases hk : k = p.foro
    · simp [insertProcess, insertProcessOk, hk]
    · simp [insertProcess, insertProcessOk, hk, ih]

theorem insertProcess_throws (g : Grouped) (p : LegalProcess)
    (hp : p.foro ∈ protoKeys) (hmem : ¬p.foro ∈ g.map Prod.fst) :
    insertProcess g p = none := by
  induction g with
  | nil => simp [insertProcess, hp]
  | cons e rest ih =>
    obtain ⟨k, v⟩ := e
    have hk : ¬k = p.foro := fun h => hmem (by simp [h])
    have hr : ¬p.foro ∈ rest.map Prod.fst := fun h => hmem (by simp [h])
    simp [insertProcess, hk, ih hr]

theorem groupProcessesFrom_ok (ps : List LegalProcess) :
    ∀ g, (∀ p ∈ ps, ¬p.foro ∈ protoKeys) →
    groupProcessesFrom g ps = some (ps.foldl insertProcessOk g) := by
  induction ps with
  | nil => intro g _; rfl
  | cons p rest ih =>
    intro g h
    simp only [groupProcessesFrom, insertProcess_eq_ok g p (h p (by simp))]
    rw [List.foldl_cons]
    exact ih _ (fun q hq => h q (by simp [hq]))

/-- When no record names an `Object.prototype` property, the aggregation
succeeds and equals the plain fold. -/
theorem groupProcesses_ok (ps : List LegalProcess)
    (h : ∀ p ∈ ps, ¬p.foro ∈ protoKeys) :
    groupProcesses ps = some (groupProcessesOk ps) :=
  groupProcessesFrom_ok ps [] h

theorem groupProcessesFrom_throws (ps : List LegalProcess) :
    ∀ g, (∀ k ∈ g.map Prod.fst, ¬k ∈ protoKeys) →
    (∃ q ∈ ps, q.foro ∈ protoKeys) →
    groupProcessesFrom g ps = none := by
  induction ps with
  | nil =>
    intro g _ hex
    rcases hex with ⟨q, hq, _⟩
    simp at hq
  | cons p rest ih =>
    intro g hg hex
    by_cases hp : p.foro ∈ protoKeys
    · have hmem : ¬p.foro ∈ g.map Prod.fst := fun hm => hg _ hm hp
      simp only [groupProcessesFrom, insertProcess_throws g p hp hmem]
    · simp only [groupProcessesFrom, insertProcess_eq_ok g p hp]
      apply ih
      · intro k hk
        rw [keys_insertProcess] at hk
        by_cases hmem : p.foro ∈ g.map Prod.fst
        · rw [if_pos hmem] at hk
          exact hg k hk
        · rw [if_neg hmem] at hk
          rcases List.mem_append.mp hk with hk | hk
          · exact hg k hk
          · have hkp : k = p.foro := by simpa using hk
            rw [hkp]
            exact hp
      · rcases hex with ⟨q, hq, hqp⟩
        rcases List.mem_cons.mp hq with rfl | hq2
        · exact absurd hqp hp
        · exact ⟨q, hq2, hqp⟩

/-- A record whose `foro` names an inherited `Object.prototype` property
makes the aggregation throw: the key can never become an own property, so
its first occurrence reads the truthy inherited value and the `.push`
raises a TypeError. -/
theorem groupProcesses_throws (ps : List LegalProcess)
    (hex : ∃ q ∈ ps, q.foro ∈ protoKeys) :
    groupProcesses ps = none :=
  groupProcessesFrom_throws ps [] (by simp) hex

theorem mem_firstOccur_aux (l : List String) (acc : List String) (x : String)
    (hx : x ∈ l.foldl (fun acc x => if x ∈ acc then acc else acc ++ [x]) acc) :
    x ∈ acc ∨ x ∈ l := by
  induction l generalizing acc with
  | nil => exact Or.inl hx
  | cons a rest ih =>
    simp only [List.foldl_cons] at hx
    rcases ih _ hx with h | h
    · by_cases ha : a ∈ acc
      · simp only [if_pos ha] at h
        exact Or.inl h
      · simp only [if_neg ha, List.mem_append, List.mem_singleton] at h
        rcases h with h | h
        · exact Or.inl h
        · exact Or.inr (by simp [h])
    · exact Or.inr (by simp [h])

theorem mem_firstOccur {l : List String} {x : String} (hx : x ∈ firstOccur l) :
    x ∈ l := by
  rcases mem_firstOccur_aux l [] x hx with h | h
  · simp at h
  · exact h

theorem jsEnumKeys_of_no_index_keys (g : Grouped)
    (h : ∀ k ∈ g.map Prod.fst, isArrayIndexKey k = false) :
    jsEnumKeys g = g.map Prod.fst := by
  have h1 : (g.map Prod.fst).filter (fun k => isArrayIndexKey k) = [] := by
    rw [List.filter_eq_nil_iff]
    intro a ha
    simp [h a ha]
  have h2 : (g.map Prod.fst).filter (fun k => !(isArrayIndexKey k)) = g.map Prod.fst := by
    rw [List.filter_eq_self]
    intro a ha
    simp [h a ha]
  simp only [jsEnumKeys, h1, h2, sortByIndex, List.foldr_nil, List.nil_append]

/-- The input of the counterexample to C1: the second record's `foro` is the
string of an array index, so JS property enumeration moves it in front. -/
def c1CexInput : List LegalProcess :=
  [⟨"A", "p1"⟩, ⟨"1", "p2"⟩]

/-- A one-record input whose `foro` names an inherited `Object.prototype`
property: the source's `if (!grouped[p.foro])` reads the truthy inherited
function, skips the initialisation, and `grouped[p.foro].push(...)` throws
a TypeError. -/
def c1ThrowInput : List LegalProcess :=
  [⟨"toString", "p9"⟩]

/-- C1 counterexample: on the input `[{foro := "A"}, {foro := "1"}]` the
aggregated object's key order as enumerated by `Object.keys`/`Object.entries`
is `["1", "A"]`, while the order of first occurrence of each foro is
`["A", "1"]` — the claim's key-order equation fails, because ECMAScript
enumerates array-index-like keys first in numeric order.  Moreover the
claim's "no failure mode" is false: a `foro` naming an `Object.prototype`
property (here `"toString"`) makes the aggregation throw a TypeError
instead of producing a mapping. -/
theorem c1_key_order_counterexample :
    groupedKeys c1CexInput = some ["1", "A"]
      ∧ firstOccur (c1CexInput.map (·.foro)) = ["A", "1"]
      ∧ groupedKeys c1CexInput ≠ some (firstOccur (c1CexInput.map (·.foro)))
      ∧ groupProcesses c1ThrowInput = none := by
  refine ⟨by decide, by decide, by decide, by decide⟩

/-- C1 (amended): for every input sequence none of whose `foro` values is an
ECMAScript array-index string or the name of an `Object.prototype`
property, the aggregation succeeds and its key order equals the order of
first occurrence of each foro, with the value sequence of every foro equal
to the sub-sequence of `processo` values for that foro in original input
order (no sorting, no deduplication); the empty input yields the empty
mapping; and for any input containing a foro that names an
`Object.prototype` property the aggregation does not produce a mapping but
throws a TypeError. -/
theorem c1_aggregator_grouping (ps : List LegalProcess)
    (h : ∀ p ∈ ps, isArrayIndexKey p.foro = false ∧ ¬p.foro ∈ protoKeys) :
    (∃ g, groupProcesses ps = some g
        ∧ jsEnumKeys g = firstOccur (ps.map (·.foro))
        ∧ (∀ f, valuesOf g f
            = (ps.filter (fun p => p.foro = f)).map (·.processo)))
      ∧ groupProcesses [] = some []
      ∧ (∀ qs : List LegalProcess, (∃ q ∈ qs, q.foro ∈ protoKeys) →
          groupProcesses qs = none) := by
  refine ⟨⟨groupProcessesOk ps, groupProcesses_ok ps (fun p hp => (h p hp).2),
           ?_, valuesOf_groupProcesses ps⟩, rfl, fun qs => groupProcesses_throws qs⟩
  have hkeys : (groupProcessesOk ps).map Prod.fst = firstOccur (ps.map (·.foro)) :=
    keys_groupProcesses ps
  have hno : ∀ k ∈ (groupProcessesOk ps).map Prod.fst, isArrayIndexKey k = false := by
    intro k hk
    rw [hkeys] at hk
    have hk2 : k ∈ ps.map (·.foro) := mem_firstOccur hk
    obtain ⟨p, hp, rfl⟩ := List.mem_map.mp hk2
    exact (h p hp).1
  rw [jsEnumKeys_of_no_index_keys _ hno, hkeys]

def c1WitnessInput : List LegalProcess :=
  [⟨"Jaboticabal", "p1"⟩, ⟨"Ribeirao Preto", "p3"⟩, ⟨"Jaboticabal", "p2"⟩]

/-- Witness for C1: the amended theorem applied at a concrete input. -/
theorem c1_aggregator_grouping_witness :
    (∀ p ∈ c1WitnessInput, isArrayIndexKey p.foro = false ∧ ¬p.foro ∈ protoKeys)
      ∧ ((∃ g, groupProcesses c1WitnessInput = some g
            ∧ jsEnumKeys g = firstOccur (c1WitnessInput.map (·.foro))
            ∧ (∀ f, valuesOf g f
                = (c1WitnessInput.filter (fun p => p.foro = f)).map (·.processo)))
          ∧ groupProcesses [] = some []
          ∧ (∀ qs : List LegalProcess, (∃ q ∈ qs, q.foro ∈ protoKeys) →
              groupProcesses qs = none)) :=
  ⟨by decide, c1_aggregator_grouping c1WitnessInput (by decide)⟩

/-! ## PDF splitting (`src/services/pdfService.ts`, `splitPdf`) -/

/-- One element of the list returned by `splitPdf`.  The source builds
`{name, blob, pageCount}`; the blob's content is represented by
`pagesToCopy`, the exact 0-based page indices copied into it
(`Array.from({length: endPage - i}, (_, index) => i + index)`). -/
structure SplitPart where
  name : String
  pagesToCopy : List Int
  pageCount : Int
deriving DecidableEq, Repr

/-- The template-literal label of a part. -/
def mkPartName (n : Nat) (a b : Int) : String :=
  "Parte " ++ toString n ++ " (Págs " ++ toString a ++ "-" ++ toString b ++ ")"

/-- The `for (let i = 0; i < totalPages; i += pagesPerPart)` loop of
`splitPdf`, embedded with explicit fuel.  The loop counter is an `Int`
because the JS `pagesPerPart` can be negative (the caller only guards
against falsy values); the source loop then never terminates, which the
embedding reports as `none` for every fuel. -/
def splitGo (totalPages : Nat) (pagesPerPart : Int) : Int → Nat → Nat → Option (List SplitPart)
  | i, partsLen, fuel =>
    if i < (totalPages : Int) then
      match fuel with
      | 0 => none
      | fuel' + 1 =>
        let endPage : Int := min (i + pagesPerPart) (totalPages : Int)
        let part : SplitPart :=
          ⟨mkPartName (partsLen + 1) (i + 1) endPage,
           (List.range (endPage - i).toNat).map (fun idx : Nat => i + (idx : Int)),
           endPage - i⟩
        match splitGo totalPages pagesPerPart (i + pagesPerPart) (partsLen + 1) fuel' with
        | none => none
        | some rest => some (part :: rest)
    else some []

/-- `splitPdf` of `src/services/pdfService.ts`, abstracted over the page
count of the input document.  `totalPages` fuel suffices whenever
`pagesPerPart ≥ 1`. -/
def splitPdfModel (totalPages : Nat) (pagesPerPart : Int) : Option (List SplitPart) :=
  splitGo totalPages pagesPerPart 0 0 totalPages

theorem ceil_div_step (p r : Nat) (hp : 1 ≤ p) (hr : 1 ≤ r) :
    (r - p + p - 1) / p + 1 = (r + p - 1) / p := by
  rcases le_or_lt p r with h | h
  · have h1 : r - p + p - 1 = r - 1 := by omega
    have h2 : r + p - 1 = r - 1 + p := by omega
    rw [h1, h2, Nat.add_div_right _ hp]
  · have h1 : r - p + p - 1 = p - 1 := by omega
    have h2 : (p - 1) / p = 0 := Nat.div_eq_of_lt (by omega)
    have h3 : r + p - 1 = r - 1 + p := by omega
    have h4 : (r - 1) / p = 0 := Nat.div_eq_of_lt (by omega)
    rw [h1, h3, Nat.add_div_right _ hp, h2, h4]

theorem range_map_cast_add (s c : Nat) :
    (List.range c).map (fun idx : Nat => ((s : Int)) + (idx : Int))
      = (List.range' s c).map (fun n : Nat => (n : Int)) := by
  rw [List.range'_eq_map_range, List.map_map]
  refine List.map_congr_left ?_
  intro a _
  simp

theorem splitGo_spec (p totalPages : Nat) (hp : 1 ≤ p) :
    ∀ fuel i partsLen, totalPages - i ≤ fuel →
    ∃ parts, splitGo totalPages (p : Int) (i : Int) partsLen fuel = some parts
      ∧ parts.length = (totalPages - i + p - 1) / p
      ∧ (parts.map (·.pageCount)).sum = ((totalPages - i : Nat) : Int)
      ∧ (parts.map (·.pagesToCopy)).flatten
          = (List.range' i (totalPages - i)).map (fun n : Nat => (n : Int)) := by
  intro fuel
  induction fuel with
  | zero =>
    intro i partsLen hfi
    have hi : totalPages ≤ i := by omega
    have hguard : ¬ ((i : Int) < (totalPages : Int)) := by exact_mod_cast not_lt.mpr hi
    refine ⟨[], ?_, ?_, ?_, ?_⟩
    · simp [splitGo, hguard]
    · have h0 : totalPages - i = 0 := by omega
      rw [h0]
      have h1 : 0 + p - 1 = p - 1 := by omega
      rw [h1, Nat.div_eq_of_lt (by omega)]
      simp
    · have h0 : totalPages - i = 0 := by omega
      simp [h0]
    · have h0 : totalPages - i = 0 := by omega
      simp [h0]
  | succ fuel ih =>
    intro i partsLen hfi
    by_cases hi : i < totalPages
    · have hguard : (i : Int) < (totalPages : Int) := by exact_mod_cast hi
      set e := min (i + p) totalPages with he
      have hie : i ≤ e := by
        rw [he]
        exact le_min (by omega) (by omega)
      have hei : e ≤ i + p := by rw [he]; exact min_le_left _ _
      have het : e ≤ totalPages := by rw [he]; exact min_le_right _ _
      obtain ⟨rest, hrest, hlen, hsum, hjoin⟩ :=
        ih (i + p) (partsLen + 1) (by omega)
      refine ⟨⟨mkPartName (partsLen + 1) ((i : Int) + 1) ((e : Nat) : Int),
               (List.range (e - i)).map (fun idx : Nat => (i : Int) + (idx : Int)),
               ((e - i : Nat) : Int)⟩ :: rest, ?_, ?_, ?_, ?_⟩
      · rw [splitGo]
        rw [if_pos hguard]
        have hemin : min ((i : Int) + (p : Int)) ((totalPages : Int)) = ((e : Nat) : Int) := by
          rw [he]
          push_cast [Nat.cast_min]
          rfl
        rw [hemin]
        dsimp only
        have hsub : (((e : Nat) : Int) - (i : Int)) = ((e - i : Nat) : Int) := by
          omega
        rw [hsub]
        have hrec : ((i : Int) + (p : Int)) = (((i + p : Nat)) : Int) := by push_cast; rfl
        rw [hrec, hrest, Int.toNat_ofNat]
      · rw [List.length_cons, hlen]
        have h2 : totalPages - (i + p) = totalPages - i - p := by omega
        rw [h2]
        exact ceil_div_step p (totalPages - i) hp (by omega)
      · rw [List.map_cons, List.sum_cons, hsum]
        dsimp only
        rcases le_or_lt (i + p) totalPages with h | h
        · have he2 : e = i + p := by rw [he]; exact min_eq_left h
          rw [he2]
          omega
        · have he2 : e = totalPages := by rw [he]; exact min_eq_right (le_of_lt h)
          rw [he2]
          omega
      · rw [List.map_cons, List.flatten_cons, hjoin]
        dsimp only
        rw [range_map_cast_add i (e - i)]
        rcases le_or_lt (i + p) totalPages with h | h
        · have he2 : e - i = p := by
            have : e = i + p := by rw [he]; exact min_eq_left h
            omega
          have h2 : totalPages - (i + p) = (totalPages - i) - p := by omega
          have h3 : totalPages - i - p + p = totalPages - i := by omega
          rw [he2, h2, ← List.map_append, List.range'_append_1, h3]
        · have he2 : e - i = totalPages - i := by
            have : e = totalPages := by rw [he]; exact min_eq_right (le_of_lt h)
            omega
          have h2 : totalPages - (i + p) = 0 := by omega
          rw [he2, h2]
          simp
    · have hguard : ¬ ((i : Int) < (totalPages : Int)) := by exact_mod_cast hi
      refine ⟨[], ?_, ?_, ?_, ?_⟩
      · simp [splitGo, hguard]
      · have h0 : totalPages - i = 0 := by omega
        rw [h0]
        have h1 : 0 + p - 1 = p - 1 := by omega
        rw [h1, Nat.div_eq_of_lt (by omega)]
        simp
      · have h0 : totalPages - i = 0 := by omega
        simp [h0]
      · have h0 : totalPages - i = 0 := by omega
        simp [h0]

theorem splitGo_nonpos_none (totalPages : Nat) (p : Int) (hp : p ≤ 0)
    (htp : 1 ≤ totalPages) :
    ∀ fuel i partsLen, i ≤ 0 → splitGo totalPages p i partsLen fuel = none := by
  intro fuel
  induction fuel with
  | zero =>
    intro i partsLen hi
    have hguard : i < (totalPages : Int) := by omega
    simp [splitGo, hguard]
  | succ fuel ih =>
    intro i partsLen hi
    have hguard : i < (totalPages : Int) := by omega
    rw [splitGo]
    simp only [if_pos hguard, ih (i + p) (partsLen + 1) (by omega)]

/-- C7: splitting yields contiguous parts in original page order — the
concatenation of the copied page ranges is exactly the full 0-based page
sequence of the document — each labelled with the part number and its
1-based page range (the source renders the spec's "Part N (Pages A-B)"
label in Portuguese as "Parte N (Págs A-B)"); in particular a 25-page
document with pagesPerPart = 10 yields exactly three parts with page
ranges 1-10, 11-20, 21-25 and page counts 10, 10, 5. -/
theorem c7_split_pages (totalPages p : Nat) (hp : 1 ≤ p) :
    (∃ parts, splitPdfModel totalPages (p : Int) = some parts
        ∧ (parts.map (·.pagesToCopy)).flatten
            = (List.range' 0 totalPages).map (fun n : Nat => (n : Int)))
      ∧ splitPdfModel 25 10 = some
          [⟨"Parte 1 (Págs 1-10)", [0, 1, 2, 3, 4, 5, 6, 7, 8, 9], 10⟩,
           ⟨"Parte 2 (Págs 11-20)", [10, 11, 12, 13, 14, 15, 16, 17, 18, 19], 10⟩,
           ⟨"Parte 3 (Págs 21-25)", [20, 21, 22, 23, 24], 5⟩] := by
  constructor
  · obtain ⟨parts, h1, _, _, h4⟩ := splitGo_spec p totalPages hp totalPages 0 0 (by omega)
    refine ⟨parts, ?_, ?_⟩
    · simpa [splitPdfModel] using h1
    · simpa using h4
  · decide

/-- Witness for C7 at the concrete input totalPages = 25, pagesPerPart = 10. -/
theorem c7_split_pages_witness :
    1 ≤ 10
      ∧ ((∃ parts, splitPdfModel 25 ((10 : Nat) : Int) = some parts
            ∧ (parts.map (·.pagesToCopy)).flatten
                = (List.range' 0 25).map (fun n : Nat => (n : Int)))
          ∧ splitPdfModel 25 10 = some
              [⟨"Parte 1 (Págs 1-10)", [0, 1, 2, 3, 4, 5, 6, 7, 8, 9], 10⟩,
               ⟨"Parte 2 (Págs 11-20)", [10, 11, 12, 13, 14, 15, 16, 17, 18, 19], 10⟩,
               ⟨"Parte 3 (Págs 21-25)", [20, 21, 22, 23, 24], 5⟩]) :=
  ⟨by decide, c7_split_pages 25 10 (by decide)⟩

/-- C10: for every page count and every pagesPerPart ≥ 1 the split loop
terminates (within totalPages fuel) and returns exactly
ceil(totalPages / pagesPerPart) parts whose page counts sum to totalPages;
and the precondition pagesPerPart ≥ 1 is required for termination: for any
pagesPerPart ≤ 0 (the caller guards only against falsy values, not against
negatives) and a non-empty document, the loop exhausts every fuel bound,
i.e. the source loop never terminates. -/
theorem c10_split_termination :
    (∀ totalPages p : Nat, 1 ≤ p →
      ∃ parts, splitPdfModel totalPages (p : Int) = some parts
        ∧ parts.length = (totalPages + p - 1) / p
        ∧ (parts.map (·.pageCount)).sum = (totalPages : Int))
      ∧ (∀ (totalPages : Nat) (p : Int), p ≤ 0 → 1 ≤ totalPages →
          ∀ fuel, splitGo totalPages p 0 0 fuel = none) := by
  constructor
  · intro totalPages p hp
    obtain ⟨parts, h1, h2, h3, _⟩ := splitGo_spec p totalPages hp totalPages 0 0 (by omega)
    exact ⟨parts, by simpa [splitPdfModel] using h1, by simpa using h2, by simpa using h3⟩
  · intro totalPages p hp htp fuel
    exact splitGo_nonpos_none totalPages p hp htp fuel 0 0 le_rfl

/-- Witness for C10: the count/sum part at 25 pages with pagesPerPart = 10,
and the divergence part at 1 page with pagesPerPart = -1 and fuel 3. -/
theorem c10_split_termination_witness :
    (∃ parts, splitPdfModel 25 ((10 : Nat) : Int) = some parts
        ∧ parts.length = (25 + 10 - 1) / 10
        ∧ (parts.map (·.pageCount)).sum = ((25 : Nat) : Int))
      ∧ splitGo 1 (-1) 0 0 3 = none :=
  ⟨c10_split_termination.1 25 10 (by decide),
   c10_split_termination.2 1 (-1) (by decide) (by decide) 3⟩

/-! ## Application state and operations (`src/App.tsx`)

React `useState`/`useRef` cells are collected into one `AppState` record;
each setter call is an immediate functional update.  The async functions
are embedded as state transformers whose `await` points are explicit
interleaving points (`applyConcs`) at which the user-invocable concurrent
operations may run. -/

inductive Phase
  | extracting
  | analyzing
  | idle
deriving DecidableEq, Repr

structure Progress where
  current : Nat
  total : Nat
  phase : Phase
deriving DecidableEq, Repr

inductive FileStatus
  | idle
  | processing
  | completed
  | error
deriving DecidableEq, Repr

inductive ToolMode
  | extract
  | split
  | consolidated
  | ocr
deriving DecidableEq, Repr

/-- `WorkspaceFile` of `src/types.ts`; the blob is represented by the page
count of its content, which is all the embedded operations inspect.
`results` is `none` when the optional field is absent. -/
structure WorkspaceFile where
  id : String
  name : String
  pageCount : Nat
  status : FileStatus
  selected : Bool
  results : Option Grouped
deriving DecidableEq, Repr

structure HistoryItem where
  id : String
  name : String
  timestamp : Nat
  results : Grouped
deriving DecidableEq, Repr

structure AppState where
  toolMode : ToolMode
  loading : Bool
  progress : Progress
  error : Option String
  groupedData : Option Grouped
  fileName : Option String
  searchQuery : String
  history : List HistoryItem
  workspace : List WorkspaceFile
  isSequentialRunning : Bool
  isBatchStopped : Bool
  activeProcesses : List (String × Bool)
deriving DecidableEq, Repr

/-- JS property assignment `activeProcesses.current[k] = b`: update the
existing key in place, otherwise append. -/
def setActive (k : String) (b : Bool) : List (String × Bool) → List (String × Bool)
  | [] => [(k, b)]
  | e :: rest => if e.1 = k then (k, b) :: rest else e :: setActive k b rest

/-- JS property read `activeProcesses.current[k]` used in a boolean
position: a missing key (`undefined`) is falsy. -/
def getActive (reg : List (String × Bool)) (k : String) : Bool :=
  match reg with
  | [] => false
  | e :: rest => if e.1 = k then e.2 else getActive rest k

/-- The `setWorkspace` updater at the start of `analyzeWorkspaceFile`
(line 280): the matching item becomes `processing` and deselected. -/
def setProcessingWs (fid : String) (ws : List WorkspaceFile) : List WorkspaceFile :=
  ws.map (fun f =>
    if f.id = fid then { f with status := .processing, selected := false } else f)

/-- The `setWorkspace` updater on success (lines 306-311): `completed`,
results populated, deselected. -/
def setCompletedWs (fid : String) (g : Grouped) (ws : List WorkspaceFile) :
    List WorkspaceFile :=
  ws.map (fun f =>
    if f.id = fid then { f with status := .completed, results := some g, selected := false }
    else f)

/-- The `setWorkspace` updater in the catch branch (line 324): status
`error`, other fields (including `results`) kept. -/
def setErrorWs (fid : String) (ws : List WorkspaceFile) : List WorkspaceFile :=
  ws.map (fun f => if f.id = fid then { f with status := .error } else f)

/-- The `setWorkspace` updater of `stopAnalysis` (line 116): every
`processing` item reverts to `idle`. -/
def stopResetWs (ws : List WorkspaceFile) : List WorkspaceFile :=
  ws.map (fun f => if f.status = .processing then { f with status := .idle } else f)

/-- `toggleFileSelection` updater (lines 353-361). -/
def toggleOneWs (fid : String) (ws : List WorkspaceFile) : List WorkspaceFile :=
  ws.map (fun f =>
    if f.id = fid then
      (if f.status = .completed then { f with selected := false }
       else { f with selected := !f.selected })
    else f)

/-- `toggleAllSelection` updater (lines 363-373). -/
def toggleAllWs (ws : List WorkspaceFile) : List WorkspaceFile :=
  let selectableFiles := ws.filter (fun f => !(f.status == FileStatus.completed))
  if selectableFiles.length = 0 then ws
  else
    let allSelectableSelected := selectableFiles.all (fun f => f.selected)
    ws.map (fun f =>
      if f.status = .completed then { f with selected := false }
      else { f with selected := !allSelectableSelected })

/-- `stopAnalysis` (lines 111-121).  Its `id` argument is unused in the
source and therefore omitted here: it sets the batch stop flag, flips every
registry entry to false, resets `processing` items to `idle`, and clears
loading / sequential-running / progress / error. -/
def stopAnalysis (s : AppState) : AppState :=
  { s with
    isBatchStopped := true,
    activeProcesses := s.activeProcesses.map (fun e => (e.1, false)),
    workspace := stopResetWs s.workspace,
    loading := false,
    isSequentialRunning := false,
    progress := ⟨0, 0, .idle⟩,
    error := none }

def toggleFileSelection (fid : String) (s : AppState) : AppState :=
  { s with workspace := toggleOneWs fid s.workspace }

def toggleAllSelection (s : AppState) : AppState :=
  { s with workspace := toggleAllWs s.workspace }

/-- A part appended to the workspace by `handleSplit` (lines 398-405):
fresh id, `idle`, selected, no results. -/
def mkWorkspacePart (pid nm : String) (pageCount : Nat) : WorkspaceFile :=
  ⟨pid, nm, pageCount, .idle, true, none⟩

/-- The workspace effect of `handleSplit` (line 406): append the new parts.
(The transient loading toggle of `handleSplit` is not observable at the
interleaving points used here.) -/
def handleSplitAppend (parts : List (String × String × Nat)) (s : AppState) : AppState :=
  { s with workspace := s.workspace ++ parts.map (fun q => mkWorkspacePart q.1 q.2.1 q.2.2) }

/-- The user-invocable operations that can run at an `await` point of a
task: pressing stop, toggling selections, or splitting another document. -/
inductive ConcOp
  | stop
  | toggleOne (fid : String)
  | toggleAll
  | split (parts : List (String × String × Nat))
deriving Repr

def applyConc : ConcOp → AppState → AppState
  | .stop, s => stopAnalysis s
  | .toggleOne fid, s => toggleFileSelection fid s
  | .toggleAll, s => toggleAllSelection s
  | .split parts, s => handleSplitAppend parts s

def applyConcs (ops : List ConcOp) (s : AppState) : AppState :=
  ops.foldl (fun st op => applyConc op st) s

/-- External collaborator calls a task can make, recorded as a trace. -/
inductive ExtCall
  | extractText
  | extractData
deriving DecidableEq, Repr

/-- Environment of one per-item task run: the text produced by
`extractTextFromPdf`, the collaborator's reply (`none` = it rejected, with
message `errMsg`), the fresh history id and timestamp, and the concurrent
operations interleaved at the two suspension points. -/
structure TaskEnv where
  rawText : String
  extractedR : Option (List LegalProcess)
  errMsg : String
  histId : String
  now : Nat
  int1 : List ConcOp
  int2 : List ConcOp

def directUploadKey : String := "direct_upload"

/-- JS `String.prototype.trim`: strip leading and trailing whitespace
(embedded over the character list so that concrete instances evaluate). -/
def jsTrim (s : String) : String :=
  ⟨((s.data.dropWhile Char.isWhitespace).reverse.dropWhile Char.isWhitespace).reverse⟩

def emptyTextMsgWorkspace : String :=
  "Não foi possível extrair texto desta parte do documento."

def emptyTextMsgDirect : String :=
  "O arquivo parece estar vazio ou não contém texto extraível."

/-- The template `${searchQuery ? ' (Filtro)' : ''}` (empty string falsy). -/
def filtroSuffix (q : String) : String := if q = "" then "" else " (Filtro)"

/-- Stands for the engine-specific message of the TypeError raised when the
aggregation fold calls `.push` on an inherited `Object.prototype` value;
the catch branch surfaces it via `err.message`. -/
def pushTypeErrorMsg : String := "grouped[p.foro].push is not a function"

/-- The synchronous prefix of `analyzeWorkspaceFile` (lines 268-280),
before the first `await`. -/
def awfStart (f : WorkspaceFile) (s : AppState) : AppState :=
  { s with
    toolMode := .extract,
    activeProcesses := setActive f.id true (setActive directUploadKey true s.activeProcesses),
    fileName := some f.name,
    loading := true,
    groupedData := none,
    error := none,
    progress := ⟨0, 0, .extracting⟩,
    workspace := setProcessingWs f.id s.workspace }

/-- The `finally` block of `analyzeWorkspaceFile` (lines 327-333): clear
both registry entries, and clear `loading` unless a batch is running. -/
def awfFinally (fid : String) (s : AppState) : AppState :=
  let s1 := { s with
    activeProcesses := setActive fid false (setActive directUploadKey false s.activeProcesses) }
  if s1.isSequentialRunning then s1 else { s1 with loading := false }

/-- `analyzeWorkspaceFile` (lines 268-334).  Control flow of the source:
start writes; await extraction; cancellation checkpoint; empty-content
throw; progress to analyzing; await the collaborator (a rejection jumps to
the catch without passing the second checkpoint); cancellation checkpoint;
the aggregation fold (whose TypeError on an `Object.prototype`-named foro
also jumps to the catch); success writes; catch writes only if the flag is
still set; finally. -/
def analyzeWorkspaceFile (f : WorkspaceFile) (env : TaskEnv) (s : AppState) :
    AppState × List ExtCall :=
  let s1 := awfStart f s
  let s2 := applyConcs env.int1 s1
  if getActive s2.activeProcesses directUploadKey = false then
    (awfFinally f.id s2, [.extractText])
  else if jsTrim env.rawText = "" then
    let sc :=
      if getActive s2.activeProcesses directUploadKey then
        { s2 with workspace := setErrorWs f.id s2.workspace,
                  error := some emptyTextMsgWorkspace }
      else s2
    (awfFinally f.id sc, [.extractText])
  else
    let s3 := { s2 with progress := ⟨0, 0, .analyzing⟩ }
    let s4 := applyConcs env.int2 s3
    match env.extractedR with
    | none =>
      let sc :=
        if getActive s4.activeProcesses directUploadKey then
          { s4 with workspace := setErrorWs f.id s4.workspace,
                    error := some env.errMsg }
        else s4
      (awfFinally f.id sc, [.extractText, .extractData])
    | some extracted =>
      if getActive s4.activeProcesses directUploadKey = false then
        (awfFinally f.id s4, [.extractText, .extractData])
      else
        match groupProcesses extracted with
        | none =>
          let sc :=
            if getActive s4.activeProcesses directUploadKey then
              { s4 with workspace := setErrorWs f.id s4.workspace,
                        error := some pushTypeErrorMsg }
            else s4
          (awfFinally f.id sc, [.extractText, .extractData])
        | some grouped =>
          let s5 :=
            { s4 with
              workspace := setCompletedWs f.id grouped s4.workspace,
              groupedData := some grouped,
              history := ⟨env.histId, f.name ++ filtroSuffix s4.searchQuery, env.now,
                grouped⟩ :: s4.history }
          (awfFinally f.id s5, [.extractText, .extractData])

/-- The synchronous prefix of `processFileForExtraction` (lines 214-220). -/
def pffStart (nm pid : String) (s : AppState) : AppState :=
  { s with
    activeProcesses := setActive pid true s.activeProcesses,
    loading := true,
    fileName := some nm,
    groupedData := none,
    error := none,
    progress := ⟨0, 0, .extracting⟩ }

/-- The `finally` block of `processFileForExtraction` (lines 259-265):
everything is guarded by the task's own flag. -/
def pffFinally (pid : String) (s : AppState) : AppState :=
  if getActive s.activeProcesses pid then
    { s with loading := false, progress := ⟨0, 0, .idle⟩,
             activeProcesses := setActive pid false s.activeProcesses }
  else s

/-- `processFileForExtraction` (lines 214-266), same structure as the
workspace variant but with no workspace writes. -/
def processFileForExtraction (nm pid : String) (env : TaskEnv) (s : AppState) :
    AppState × List ExtCall :=
  let s1 := pffStart nm pid s
  let s2 := applyConcs env.int1 s1
  if getActive s2.activeProcesses pid = false then
    (pffFinally pid s2, [.extractText])
  else if jsTrim env.rawText = "" then
    let sc :=
      if getActive s2.activeProcesses pid then
        { s2 with error := some emptyTextMsgDirect }
      else s2
    (pffFinally pid sc, [.extractText])
  else
    let s3 := { s2 with progress := ⟨0, 0, .analyzing⟩ }
    let s4 := applyConcs env.int2 s3
    match env.extractedR with
    | none =>
      let sc :=
        if getActive s4.activeProcesses pid then { s4 with error := some env.errMsg } else s4
      (pffFinally pid sc, [.extractText, .extractData])
    | some extracted =>
      if getActive s4.activeProcesses pid = false then
        (pffFinally pid s4, [.extractText, .extractData])
      else
        match groupProcesses extracted with
        | none =>
          let sc :=
            if getActive s4.activeProcesses pid then
              { s4 with error := some pushTypeErrorMsg }
            else s4
          (pffFinally pid sc, [.extractText, .extractData])
        | some grouped =>
          let s5 :=
            { s4 with
              groupedData := some grouped,
              history := ⟨env.histId, nm ++ filtroSuffix s4.searchQuery, env.now,
                grouped⟩ :: s4.history }
          (pffFinally pid s5, [.extractText, .extractData])

/-- One iteration of the batch loop body: run the per-item task. -/
def batchStep (envOf : WorkspaceFile → TaskEnv) (s : AppState) (f : WorkspaceFile) : AppState :=
  (analyzeWorkspaceFile f (envOf f) s).1

/-- The `for (const file of selectedFiles)` loop of
`analyzeBatchSequential` (lines 343-346), returning the final state and
the ids of the items actually attempted, in order. -/
def runBatchLoop (envOf : WorkspaceFile → TaskEnv) :
    List WorkspaceFile → AppState → AppState × List String
  | [], s => (s, [])
  | f :: rest, s =>
    if s.isBatchStopped then (s, [])
    else
      let s2 := batchStep envOf s f
      let r := runBatchLoop envOf rest s2
      (r.1, f.id :: r.2)

/-- `analyzeBatchSequential` (lines 336-351). -/
def analyzeBatchSequential (envOf : WorkspaceFile → TaskEnv) (s : AppState) :
    AppState × List String :=
  let selectedFiles := s.workspace.filter
    (fun f => f.selected && !(f.status == FileStatus.completed))
  if selectedFiles.length = 0 || s.isSequentialRunning then (s, [])
  else
    let s0 := { s with isBatchStopped := false, isSequentialRunning := true }
    let r := runBatchLoop envOf selectedFiles s0
    ({ r.1 with isSequentialRunning := false, loading := false, progress := ⟨0, 0, .idle⟩ },
     r.2)

/-- The mount effect of `App` (lines 48-57): read the persisted slot, parse
it inside try/catch; a missing slot or a parse failure (the catch branch)
leaves the initial empty history in place.  `parse` stands for the external
`JSON.parse` plus deserialization, returning `none` where the source
throws. -/
def loadHistory (parse : String → Option (List HistoryItem)) (saved : Option String) :
    List HistoryItem :=
  match saved with
  | none => []
  | some str =>
    match parse str with
    | some h => h
    | none => []

/-- Startup followed by the save effect (lines 59-61): after the effects
settle, the history is the loaded value and the persisted slot holds its
serialization (the save effect runs on every history change). -/
def startupEffects (parse : String → Option (List HistoryItem))
    (serialize : List HistoryItem → String) (saved : Option String) :
    List HistoryItem × Option String :=
  let h := loadHistory parse saved
  (h, some (serialize h))

/-! ## Registry and finally-block lemmas -/

theorem getActive_setActive_self (k : String) (b : Bool) (reg : List (String × Bool)) :
    getActive (setActive k b reg) k = b := by
  induction reg with
  | nil => simp [setActive, getActive]
  | cons e rest ih =>
    by_cases h : e.1 = k
    · simp [setActive, getActive, h]
    · simp [setActive, getActive, h, ih]

theorem getActive_setActive_other (k k' : String) (h : ¬k = k') (b : Bool)
    (reg : List (String × Bool)) :
    getActive (setActive k' b reg) k = getActive reg k := by
  have h2 : ¬(k' = k) := fun hh => h hh.symm
  induction reg with
  | nil => simp [setActive, getActive, h2]
  | cons e rest ih =>
    by_cases he : e.1 = k'
    · simp [setActive, getActive, he, h2]
    · simp [setActive, getActive, he, ih]

theorem getActive_double_true (k1 k2 : String) (reg : List (String × Bool)) :
    getActive (setActive k2 true (setActive k1 true reg)) k1 = true := by
  by_cases h : k1 = k2
  · subst h
    exact getActive_setActive_self k1 true _
  · rw [getActive_setActive_other k1 k2 h true _]
    exact getActive_setActive_self k1 true reg

theorem getActive_stopAll (reg : List (String × Bool)) (k : String) :
    getActive (reg.map (fun e => (e.1, false))) k = false := by
  induction reg with
  | nil => simp [getActive]
  | cons e rest ih =>
    by_cases h : e.1 = k <;> simp [getActive, h, ih]

theorem mem_keys_setActive (k : String) (b : Bool) (reg : List (String × Bool)) :
    k ∈ (setActive k b reg).map Prod.fst := by
  induction reg with
  | nil => simp [setActive]
  | cons e rest ih =>
    by_cases h : e.1 = k <;> simp [setActive, h, ih]

theorem keys_stopAll (reg : List (String × Bool)) :
    (reg.map (fun e => (e.1, false))).map Prod.fst = reg.map Prod.fst := by
  induction reg with
  | nil => rfl
  | cons e rest ih => simp [ih]

theorem setActive_false_fixed (k : String) (reg : List (String × Bool))
    (hmem : k ∈ reg.map Prod.fst) (hall : ∀ e ∈ reg, e.2 = false) :
    setActive k false reg = reg := by
  induction reg with
  | nil => simp at hmem
  | cons e rest ih =>
    by_cases h : e.1 = k
    · have he2 : e.2 = false := hall e (by simp)
      have : e = (k, false) := by
        obtain ⟨e1, e2⟩ := e
        simp only at h he2
        rw [h, he2]
      simp [setActive, h, this]
    · have hmem2 : k ∈ rest.map Prod.fst := by
        rcases List.mem_map.mp hmem with ⟨d, hd, hdk⟩
        rcases List.mem_cons.mp hd with hde | hdr
        · exact absurd (hde ▸ hdk) h
        · exact List.mem_map.mpr ⟨d, hdr, hdk⟩
      simp [setActive, h, ih hmem2 (fun d hd => hall d (by simp [hd]))]

theorem mem_stopAll_false (reg : List (String × Bool)) :
    ∀ e ∈ reg.map (fun e => (e.1, false)), e.2 = false := by
  intro e he
  rcases List.mem_map.mp he with ⟨d, _, rfl⟩
  rfl

theorem awfFinally_error (fid : String) (st : AppState) :
    (awfFinally fid st).error = st.error := by
  unfold awfFinally
  dsimp only
  split <;> rfl

theorem awfFinally_workspace (fid : String) (st : AppState) :
    (awfFinally fid st).workspace = st.workspace := by
  unfold awfFinally
  dsimp only
  split <;> rfl

theorem awfFinally_history (fid : String) (st : AppState) :
    (awfFinally fid st).history = st.history := by
  unfold awfFinally
  dsimp only
  split <;> rfl

theorem pffFinally_error (pid : String) (st : AppState) :
    (pffFinally pid st).error = st.error := by
  unfold pffFinally
  split <;> rfl

/-! ## C3: stopping resets every processing item -/

/-- C3: after the stop operation, no workspace item is `processing`; every
item that was `processing` reverts to `idle` (all other fields kept); every
entry of the active-process registry is `false`; and the global
loading/progress/error state (and the sequential-running flag) is cleared,
with the batch stop flag set. -/
theorem c3_stop_analysis_resets (s : AppState) :
    (∀ f ∈ (stopAnalysis s).workspace, f.status ≠ FileStatus.processing)
      ∧ (∀ f ∈ s.workspace, f.status = FileStatus.processing →
          { f with status := FileStatus.idle } ∈ (stopAnalysis s).workspace)
      ∧ (∀ e ∈ (stopAnalysis s).activeProcesses, e.2 = false)
      ∧ (stopAnalysis s).loading = false
      ∧ (stopAnalysis s).progress = ⟨0, 0, Phase.idle⟩
      ∧ (stopAnalysis s).error = none
      ∧ (stopAnalysis s).isSequentialRunning = false
      ∧ (stopAnalysis s).isBatchStopped = true := by
  refine ⟨?_, ?_, ?_, rfl, rfl, rfl, rfl, rfl⟩
  · intro f hf
    have : (stopAnalysis s).workspace = stopResetWs s.workspace := rfl
    rw [this, stopResetWs] at hf
    rcases List.mem_map.mp hf with ⟨g, _, rfl⟩
    by_cases h : g.status = FileStatus.processing <;> simp [h]
  · intro f hf hp
    have : (stopAnalysis s).workspace = stopResetWs s.workspace := rfl
    rw [this, stopResetWs]
    refine List.mem_map.mpr ⟨f, hf, ?_⟩
    simp [hp]
  · exact mem_stopAll_false s.activeProcesses

def wfProc : WorkspaceFile :=
  ⟨"w1", "parte 1", 3, .processing, false, none⟩

def wfIdleSel : WorkspaceFile :=
  ⟨"w2", "parte 2", 4, .idle, true, none⟩

def wfIdleUnsel : WorkspaceFile :=
  ⟨"w3", "parte 3", 5, .idle, false, none⟩

def sampleState : AppState :=
  { toolMode := .extract, loading := true, progress := ⟨1, 2, .extracting⟩,
    error := none, groupedData := none, fileName := none, searchQuery := "",
    history := [], workspace := [wfProc, wfIdleSel, wfIdleUnsel],
    isSequentialRunning := false, isBatchStopped := false,
    activeProcesses := [(directUploadKey, true), ("w1", true)] }

/-- Witness for C3: the theorem applied at a concrete state containing a
`processing` item and a live registry entry. -/
theorem c3_stop_analysis_resets_witness :
    ((directUploadKey, true) ∈ sampleState.activeProcesses)
      ∧ wfProc ∈ sampleState.workspace
      ∧ wfProc.status = FileStatus.processing
      ∧ { wfProc with status := FileStatus.idle } ∈ (stopAnalysis sampleState).workspace :=
  ⟨by decide, by decide, by decide,
   (c3_stop_analysis_resets sampleState).2.1 wfProc (by decide) (by decide)⟩

/-! ## C9: history persistence tolerates corrupt or missing saved copy -/

/-- C9: loading the persisted history at startup never crashes (the
embedding is a total function whose catch branch is the `none` case of
`parse`): a missing slot or a failed parse falls back to the empty history,
a successful parse installs the parsed value, and after the effects run the
persisted slot always holds the serialization of the current history (the
save effect runs on every history change). -/
theorem c9_history_persistence
    (parse : String → Option (List HistoryItem))
    (serialize : List HistoryItem → String) :
    (startupEffects parse serialize none).1 = []
      ∧ (∀ str, parse str = none → (startupEffects parse serialize (some str)).1 = [])
      ∧ (∀ str h, parse str = some h → (startupEffects parse serialize (some str)).1 = h)
      ∧ (∀ saved, (startupEffects parse serialize saved).2
          = some (serialize (startupEffects parse serialize saved).1)) := by
  refine ⟨rfl, ?_, ?_, fun saved => rfl⟩
  · intro str h
    simp [startupEffects, loadHistory, h]
  · intro str h hh
    simp [startupEffects, loadHistory, hh]

def corruptPayload : String := "not json"

/-- Witness for C9: the theorem applied to a parser that rejects its input
(the corrupt-copy case). -/
theorem c9_history_persistence_witness :
    ((fun (_ : String) => (none : Option (List HistoryItem))) corruptPayload = none)
      ∧ (startupEffects (fun (_ : String) => (none : Option (List HistoryItem)))
          (fun _ => corruptPayload) (some corruptPayload)).1 = [] :=
  ⟨rfl, (c9_history_persistence (fun _ => none) (fun _ => corruptPayload)).2.1
          corruptPayload rfl⟩

/-! ## C8: empty extracted content aborts before the collaborator call -/

theorem applyConcs_nil (s : AppState) : applyConcs [] s = s := rfl

/-- C8: when content extraction yields no usable text (empty after
trimming) and no concurrent operation ran during extraction, the task
surfaces the user-visible empty-content message, marks the workspace item
`error` (workspace variant), and its external-call trace contains only the
text extraction — the extraction collaborator is never called.  Both
per-item task variants are covered. -/
theorem c8_empty_content (s : AppState) (f : WorkspaceFile) (nm pid : String)
    (env : TaskEnv) (h1 : env.int1 = []) (hraw : jsTrim env.rawText = "") :
    (analyzeWorkspaceFile f env s).2 = [ExtCall.extractText]
      ∧ (analyzeWorkspaceFile f env s).1.error = some emptyTextMsgWorkspace
      ∧ (∀ g ∈ (analyzeWorkspaceFile f env s).1.workspace,
          g.id = f.id → g.status = FileStatus.error)
      ∧ (processFileForExtraction nm pid env s).2 = [ExtCall.extractText]
      ∧ (processFileForExtraction nm pid env s).1.error = some emptyTextMsgDirect := by
  have hact : getActive (awfStart f s).activeProcesses directUploadKey = true :=
    getActive_double_true directUploadKey f.id s.activeProcesses
  have hres : analyzeWorkspaceFile f env s
      = (awfFinally f.id
          { awfStart f s with
            workspace := setErrorWs f.id (awfStart f s).workspace,
            error := some emptyTextMsgWorkspace }, [ExtCall.extractText]) := by
    unfold analyzeWorkspaceFile
    rw [h1]
    dsimp only
    rw [applyConcs_nil, hact, hraw]
    simp
  have hact2 : getActive (pffStart nm pid s).activeProcesses pid = true :=
    getActive_setActive_self pid true s.activeProcesses
  have hres2 : processFileForExtraction nm pid env s
      = (pffFinally pid
          { pffStart nm pid s with error := some emptyTextMsgDirect },
         [ExtCall.extractText]) := by
    unfold processFileForExtraction
    rw [h1]
    dsimp only
    rw [applyConcs_nil, hact2, hraw]
    simp
  refine ⟨by rw [hres], ?_, ?_, by rw [hres2], ?_⟩
  · rw [hres]
    rw [awfFinally_error]
  · rw [hres]
    intro g hg hid
    rw [awfFinally_workspace] at hg
    have : setErrorWs f.id (awfStart f s).workspace
        = setErrorWs f.id (setProcessingWs f.id s.workspace) := rfl
    rw [this, setErrorWs, setProcessingWs] at hg
    rcases List.mem_map.mp hg with ⟨g1, hg1, rfl⟩
    rcases List.mem_map.mp hg1 with ⟨g0, _, rfl⟩
    by_cases h : g0.id = f.id
    · simp [h]
    · exfalso
      apply h
      revert hid
      simp [h]
  · rw [hres2]
    rw [pffFinally_error]

def emptyRaw : String := "   "

def c8Env : TaskEnv :=
  ⟨emptyRaw, some [], "erro externo", "h1", 7, [], []⟩

/-- Witness for C8 at a concrete state and task environment. -/
theorem c8_empty_content_witness :
    c8Env.int1 = [] ∧ jsTrim c8Env.rawText = ""
      ∧ ((analyzeWorkspaceFile wfIdleSel c8Env sampleState).2 = [ExtCall.extractText]
          ∧ (analyzeWorkspaceFile wfIdleSel c8Env sampleState).1.error
              = some emptyTextMsgWorkspace
          ∧ (∀ g ∈ (analyzeWorkspaceFile wfIdleSel c8Env sampleState).1.workspace,
              g.id = wfIdleSel.id → g.status = FileStatus.error)
          ∧ (processFileForExtraction wfIdleSel.name wfIdleSel.id c8Env sampleState).2
              = [ExtCall.extractText]
          ∧ (processFileForExtraction wfIdleSel.name wfIdleSel.id c8Env sampleState).1.error
              = some emptyTextMsgDirect) :=
  ⟨rfl, by decide,
   c8_empty_content sampleState wfIdleSel wfIdleSel.name wfIdleSel.id c8Env rfl (by decide)⟩

/-! ## C2: cancellation between the extraction and analysis checkpoints -/

theorem mem_keys_setActive_of_mem (k k2 : String) (b : Bool)
    (reg : List (String × Bool)) (h : k ∈ reg.map Prod.fst) :
    k ∈ (setActive k2 b reg).map Prod.fst := by
  induction reg with
  | nil => simp at h
  | cons e rest ih =>
    by_cases he : e.1 = k2
    · simp only [List.map_cons, List.mem_cons] at h
      rcases h with h | h
      · simp [setActive, he, he ▸ h]
      · simp [setActive, he, h]
    · simp only [List.map_cons, List.mem_cons] at h
      rcases h with h | h
      · simp [setActive, he, h]
      · simp [setActive, he, ih h]

theorem applyConcs_stop (s : AppState) :
    applyConcs [ConcOp.stop] s = stopAnalysis s := rfl

theorem getActive_stopAnalysis (s : AppState) (k : String) :
    getActive (stopAnalysis s).activeProcesses k = false :=
  getActive_stopAll s.activeProcesses k

theorem awfFinally_of_stopped (fid : String) (st : AppState)
    (hseq : st.isSequentialRunning = false)
    (hload : st.loading = false)
    (hmem1 : directUploadKey ∈ st.activeProcesses.map Prod.fst)
    (hmem2 : fid ∈ st.activeProcesses.map Prod.fst)
    (hall : ∀ e ∈ st.activeProcesses, e.2 = false) :
    awfFinally fid st = st := by
  have h1 : setActive directUploadKey false st.activeProcesses = st.activeProcesses :=
    setActive_false_fixed _ _ hmem1 hall
  have h2 : setActive fid false (setActive directUploadKey false st.activeProcesses)
      = st.activeProcesses := by
    rw [h1]
    exact setActive_false_fixed _ _ hmem2 hall
  unfold awfFinally
  dsimp only
  rw [h2, hseq]
  cases st
  simp_all

/-- C2: a per-item task whose cancellation flag is cleared by the stop
operation after the extraction checkpoint but before the analysis
checkpoint ends in exactly the state the stop operation left behind — the
failed second checkpoint forbids every further shared-state write: the
per-claim item's status is the one the stop set (`idle`, never flipped to
`completed` or `error`), no HistoryEntry is appended, and the task's trace
shows both external calls already issued before the abort. -/
theorem c2_cancel_after_extraction (s : AppState) (f : WorkspaceFile)
    (raw msg hid : String) (procs : List LegalProcess) (now : Nat)
    (hraw : ¬jsTrim raw = "") :
    (analyzeWorkspaceFile f ⟨raw, some procs, msg, hid, now, [], [ConcOp.stop]⟩ s).1
        = stopAnalysis { awfStart f s with progress := ⟨0, 0, Phase.analyzing⟩ }
      ∧ (analyzeWorkspaceFile f ⟨raw, some procs, msg, hid, now, [], [ConcOp.stop]⟩ s).2
          = [ExtCall.extractText, ExtCall.extractData]
      ∧ (analyzeWorkspaceFile f ⟨raw, some procs, msg, hid, now, [], [ConcOp.stop]⟩ s).1.history
          = s.history
      ∧ (∀ g ∈ (analyzeWorkspaceFile f
            ⟨raw, some procs, msg, hid, now, [], [ConcOp.stop]⟩ s).1.workspace,
          g.id = f.id → g.status = FileStatus.idle) := by
  have hact : getActive (awfStart f s).activeProcesses directUploadKey = true :=
    getActive_double_true directUploadKey f.id s.activeProcesses
  have hstopped : ∀ e ∈ (stopAnalysis
      { awfStart f s with progress := ⟨0, 0, Phase.analyzing⟩ }).activeProcesses,
      e.2 = false := mem_stopAll_false _
  have hkeys : (stopAnalysis
      { awfStart f s with progress := ⟨0, 0, Phase.analyzing⟩ }).activeProcesses.map Prod.fst
      = (setActive f.id true (setActive directUploadKey true s.activeProcesses)).map Prod.fst :=
    keys_stopAll _
  have hmem1 : directUploadKey ∈ (stopAnalysis
      { awfStart f s with progress := ⟨0, 0, Phase.analyzing⟩ }).activeProcesses.map Prod.fst := by
    rw [hkeys]
    exact mem_keys_setActive_of_mem _ _ _ _ (mem_keys_setActive directUploadKey true _)
  have hmem2 : f.id ∈ (stopAnalysis
      { awfStart f s with progress := ⟨0, 0, Phase.analyzing⟩ }).activeProcesses.map Prod.fst := by
    rw [hkeys]
    exact mem_keys_setActive f.id true _
  have hfin : awfFinally f.id (stopAnalysis
      { awfStart f s with progress := ⟨0, 0, Phase.analyzing⟩ })
      = stopAnalysis { awfStart f s with progress := ⟨0, 0, Phase.analyzing⟩ } :=
    awfFinally_of_stopped _ _ rfl rfl hmem1 hmem2 hstopped
  have hres : (analyzeWorkspaceFile f ⟨raw, some procs, msg, hid, now, [], [ConcOp.stop]⟩ s)
      = (stopAnalysis { awfStart f s with progress := ⟨0, 0, Phase.analyzing⟩ },
         [ExtCall.extractText, ExtCall.extractData]) := by
    unfold analyzeWorkspaceFile
    dsimp only
    rw [applyConcs_nil, hact, if_neg hraw, applyConcs_stop, getActive_stopAnalysis]
    simp only [Bool.true_eq_false, if_false, if_pos rfl]
    rw [hfin]
    simp
  refine ⟨by rw [hres], by rw [hres], by rw [hres]; rfl, ?_⟩
  · rw [hres]
    intro g hg hid2
    have hws : (stopAnalysis
        { awfStart f s with progress := ⟨0, 0, Phase.analyzing⟩ }).workspace
        = stopResetWs (setProcessingWs f.id s.workspace) := rfl
    rw [hws, stopResetWs, setProcessingWs] at hg
    rcases List.mem_map.mp hg with ⟨g1, hg1, rfl⟩
    rcases List.mem_map.mp hg1 with ⟨g0, _, rfl⟩
    by_cases h : g0.id = f.id
    · simp [h]
    · exfalso
      apply h
      revert hid2
      by_cases hst : g0.status = FileStatus.processing <;> simp [h, hst]

def sampleRaw : String := "texto util"

/-- Witness for C2 at a concrete state, item and environment. -/
theorem c2_cancel_after_extraction_witness :
    (¬jsTrim sampleRaw = "")
      ∧ ((analyzeWorkspaceFile wfIdleSel
            ⟨sampleRaw, some [], "erro", "h2", 3, [], [ConcOp.stop]⟩ sampleState).1
          = stopAnalysis
              { awfStart wfIdleSel sampleState with progress := ⟨0, 0, Phase.analyzing⟩ }
        ∧ (analyzeWorkspaceFile wfIdleSel
            ⟨sampleRaw, some [], "erro", "h2", 3, [], [ConcOp.stop]⟩ sampleState).2
          = [ExtCall.extractText, ExtCall.extractData]
        ∧ (analyzeWorkspaceFile wfIdleSel
            ⟨sampleRaw, some [], "erro", "h2", 3, [], [ConcOp.stop]⟩ sampleState).1.history
          = sampleState.history
        ∧ (∀ g ∈ (analyzeWorkspaceFile wfIdleSel
              ⟨sampleRaw, some [], "erro", "h2", 3, [], [ConcOp.stop]⟩ sampleState).1.workspace,
            g.id = wfIdleSel.id → g.status = FileStatus.idle)) :=
  ⟨by decide,
   c2_cancel_after_extraction sampleState wfIdleSel sampleRaw ("erro") ("h2") [] 3 (by decide)⟩

/-! ## C5: double "select all pending" toggle -/

/-- Observation of one item's selection flag restricted to the pending
(non-completed) items the claim talks about. -/
def pendingSelected (f : WorkspaceFile) : Option Bool :=
  if f.status = FileStatus.completed then none else some f.selected

theorem all_congr_mem {α : Type} (l : List α) (p q : α → Bool)
    (h : ∀ x ∈ l, p x = q x) : l.all p = l.all q := by
  induction l with
  | nil => rfl
  | cons x xs ih =>
    simp only [List.all_cons, h x (by simp)]
    rw [ih (fun y hy => h y (by simp [hy]))]

theorem all_const_of_ne_nil {α : Type} (l : List α) (hl : l ≠ []) (b : Bool) :
    l.all (fun _ => b) = b := by
  cases l with
  | nil => exact absurd rfl hl
  | cons x xs =>
    cases b with
    | false => simp [List.all_cons]
    | true => simp [List.all_cons]

theorem toggleAllWs_of_empty (ws : List WorkspaceFile)
    (h : (ws.filter (fun f => !(f.status == FileStatus.completed))).length = 0) :
    toggleAllWs ws = ws := by
  unfold toggleAllWs
  dsimp only
  rw [if_pos h]

theorem toggleAllWs_of_ne (ws : List WorkspaceFile)
    (h : ¬(ws.filter (fun f => !(f.status == FileStatus.completed))).length = 0) :
    toggleAllWs ws = ws.map (fun f =>
      if f.status = FileStatus.completed then { f with selected := false }
      else { f with selected :=
        !((ws.filter (fun f => !(f.status == FileStatus.completed))).all
            (fun f => f.selected)) }) := by
  unfold toggleAllWs
  dsimp only
  rw [if_neg h]

theorem toggleAllWs_twice (ws : List WorkspaceFile)
    (h : (∀ f ∈ ws, ¬f.status = FileStatus.completed → f.selected = true)
        ∨ (∀ f ∈ ws, ¬f.status = FileStatus.completed → f.selected = false)) :
    (toggleAllWs (toggleAllWs ws)).map pendingSelected = ws.map pendingSelected := by
  by_cases hsel : (ws.filter (fun f => !(f.status == FileStatus.completed))).length = 0
  · rw [toggleAllWs_of_empty ws hsel, toggleAllWs_of_empty ws hsel]
  · have hfilne : ws.filter (fun f => !(f.status == FileStatus.completed)) ≠ [] := by
      intro hnil
      exact hsel (by simp [hnil])
    have hfb : ∀ f ∈ ws, ¬f.status = FileStatus.completed →
        f.selected = (ws.filter (fun f => !(f.status == FileStatus.completed))).all
          (fun f => f.selected) := by
      rcases h with h | h
      · have hbtrue : (ws.filter (fun f => !(f.status == FileStatus.completed))).all
            (fun f => f.selected) = true := by
          rw [List.all_eq_true]
          intro x hx
          have hx2 := List.mem_filter.mp hx
          have hxc : ¬x.status = FileStatus.completed := by simpa using hx2.2
          exact h x hx2.1 hxc
        intro f hf hfc
        rw [hbtrue]
        exact h f hf hfc
      · have hbfalse : (ws.filter (fun f => !(f.status == FileStatus.completed))).all
            (fun f => f.selected) = false := by
          obtain ⟨x, hx⟩ := List.exists_mem_of_length_pos (Nat.pos_of_ne_zero hsel)
          have hx2 := List.mem_filter.mp hx
          have hxc : ¬x.status = FileStatus.completed := by simpa using hx2.2
          have hxsel : x.selected = false := h x hx2.1 hxc
          cases hba : (ws.filter (fun f => !(f.status == FileStatus.completed))).all
              (fun f => f.selected) with
          | false => rfl
          | true =>
            have := List.all_eq_true.mp hba x hx
            rw [hxsel] at this
            exact absurd this (by simp)
        intro f hf hfc
        rw [hbfalse]
        exact h f hf hfc
    rw [toggleAllWs_of_ne ws hsel]
    have hsel1 : (ws.map (fun f =>
        if f.status = FileStatus.completed then { f with selected := false }
        else { f with selected :=
          !((ws.filter (fun f => !(f.status == FileStatus.completed))).all
              (fun f => f.selected)) })).filter (fun f => !(f.status == FileStatus.completed))
        = (ws.filter (fun f => !(f.status == FileStatus.completed))).map (fun f =>
            if f.status = FileStatus.completed then { f with selected := false }
            else { f with selected :=
              !((ws.filter (fun f => !(f.status == FileStatus.completed))).all
                  (fun f => f.selected)) }) := by
      rw [List.filter_map]
      refine congrArg _ (List.filter_congr ?_)
      intro x _
      by_cases hx : x.status = FileStatus.completed <;> simp [hx]
    have hlen1 : ¬((ws.map (fun f =>
        if f.status = FileStatus.completed then { f with selected := false }
        else { f with selected :=
          !((ws.filter (fun f => !(f.status == FileStatus.completed))).all
              (fun f => f.selected)) })).filter
          (fun f => !(f.status == FileStatus.completed))).length = 0 := by
      rw [hsel1, List.length_map]
      exact hsel
    rw [toggleAllWs_of_ne _ hlen1]
    have hb1 : ((ws.map (fun f =>
        if f.status = FileStatus.completed then { f with selected := false }
        else { f with selected :=
          !((ws.filter (fun f => !(f.status == FileStatus.completed))).all
              (fun f => f.selected)) })).filter
          (fun f => !(f.status == FileStatus.completed))).all (fun f => f.selected)
        = !((ws.filter (fun f => !(f.status == FileStatus.completed))).all
            (fun f => f.selected)) := by
      rw [hsel1, List.all_map]
      rw [all_congr_mem _ _ (fun _ =>
        !((ws.filter (fun f => !(f.status == FileStatus.completed))).all
            (fun f => f.selected))) ?_]
      · exact all_const_of_ne_nil _ hfilne _
      · intro x hx
        have hx2 := List.mem_filter.mp hx
        have hxc : ¬x.status = FileStatus.completed := by simpa using hx2.2
        simp [Function.comp, hxc]
    simp only [hb1, Bool.not_not, List.map_map]
    refine List.map_congr_left ?_
    intro f hf
    by_cases hc : f.status = FileStatus.completed
    · simp [Function.comp, pendingSelected, hc]
    · simp [Function.comp, pendingSelected, hc, ← hfb f hf hc]

def c5CexState : AppState :=
  { sampleState with workspace := [wfIdleSel, wfIdleUnsel] }

/-- C5 counterexample: with two pending items of which exactly one is
selected, toggling "select all pending" twice deselects both — the pending
subset's selection flags do not return to their original values. -/
theorem c5_toggle_all_counterexample :
    (toggleAllSelection (toggleAllSelection c5CexState)).workspace.map pendingSelected
        = [some false, some false]
      ∧ c5CexState.workspace.map pendingSelected = [some true, some false]
      ∧ (toggleAllSelection (toggleAllSelection c5CexState)).workspace.map pendingSelected
          ≠ c5CexState.workspace.map pendingSelected :=
  ⟨by decide, by decide, by decide⟩

/-- C5 (amended): applying the "select all pending" toggle twice in
succession (no completions in between) returns the selection flags of the
non-completed items to their original values provided the pending items'
flags were uniform before the first toggle (all selected, or all
unselected — in particular whenever there is at most one pending item);
with a mixed initial selection, the double toggle instead leaves every
pending item deselected. -/
theorem c5_toggle_all_pending (s : AppState)
    (h : (∀ f ∈ s.workspace, ¬f.status = FileStatus.completed → f.selected = true)
        ∨ (∀ f ∈ s.workspace, ¬f.status = FileStatus.completed → f.selected = false)) :
    (toggleAllSelection (toggleAllSelection s)).workspace.map pendingSelected
      = s.workspace.map pendingSelected := by
  have hws : (toggleAllSelection (toggleAllSelection s)).workspace
      = toggleAllWs (toggleAllWs s.workspace) := rfl
  rw [hws]
  exact toggleAllWs_twice s.workspace h

def c5WitnessState : AppState :=
  { sampleState with workspace := [wfIdleSel] }

/-- Witness for C5: the amended theorem applied at a concrete state whose
pending items are all selected. -/
theorem c5_toggle_all_pending_witness :
    ((∀ f ∈ c5WitnessState.workspace, ¬f.status = FileStatus.completed → f.selected = true)
        ∨ (∀ f ∈ c5WitnessState.workspace, ¬f.status = FileStatus.completed →
            f.selected = false))
      ∧ (toggleAllSelection (toggleAllSelection c5WitnessState)).workspace.map pendingSelected
          = c5WitnessState.workspace.map pendingSelected := by
  have hh : (∀ f ∈ c5WitnessState.workspace, ¬f.status = FileStatus.completed →
        f.selected = true)
      ∨ (∀ f ∈ c5WitnessState.workspace, ¬f.status = FileStatus.completed →
        f.selected = false) := by
    left
    decide
  exact ⟨hh, c5_toggle_all_pending c5WitnessState hh⟩

/-! ## C4: completed implies results populated; error implies results absent -/

/-- Workspace states reachable through the operations of `src/App.tsx` that
create items or write their status/results fields.  Each constructor is
exactly one of the source's `setWorkspace` updaters, with no precondition:
`analyzeWorkspaceFile` never checks the status of the item it was handed,
so `start` (the processing write at line 280) and `fail` (the catch write
at line 324) can target any item — in particular an item that has
meanwhile become `completed`, which really happens: the batch runner
snapshots `selectedFiles` once (line 337) while the per-item "Analisar"
button stays enabled for idle items during a running batch, so an item can
be completed individually mid-batch and then be re-started from the stale
snapshot. -/
inductive ReachableWs : List WorkspaceFile → Prop
  | init : ReachableWs []
  | split (parts : List (String × String × Nat)) {ws : List WorkspaceFile}
      (h : ReachableWs ws) :
      ReachableWs (ws ++ parts.map (fun q => mkWorkspacePart q.1 q.2.1 q.2.2))
  | toggleOne (fid : String) {ws : List WorkspaceFile} (h : ReachableWs ws) :
      ReachableWs (toggleOneWs fid ws)
  | toggleAll {ws : List WorkspaceFile} (h : ReachableWs ws) :
      ReachableWs (toggleAllWs ws)
  | stopReset {ws : List WorkspaceFile} (h : ReachableWs ws) :
      ReachableWs (stopResetWs ws)
  | start (fid : String) {ws : List WorkspaceFile} (h : ReachableWs ws) :
      ReachableWs (setProcessingWs fid ws)
  | complete (fid : String) (g : Grouped) {ws : List WorkspaceFile}
      (h : ReachableWs ws) : ReachableWs (setCompletedWs fid g ws)
  | fail (fid : String) {ws : List WorkspaceFile} (h : ReachableWs ws) :
      ReachableWs (setErrorWs fid ws)

/-- The restriction of `ReachableWs` to executions in which no analysis
task is started on — and no task failure is recorded against — an item
that is already `completed`.  This is the hypothesis of the amended claim;
the stale-snapshot interleaving of `c4_error_results_counterexample`
violates it. -/
inductive GuardedReachableWs : List WorkspaceFile → Prop
  | init : GuardedReachableWs []
  | split (parts : List (String × String × Nat)) {ws : List WorkspaceFile}
      (h : GuardedReachableWs ws) :
      GuardedReachableWs (ws ++ parts.map (fun q => mkWorkspacePart q.1 q.2.1 q.2.2))
  | toggleOne (fid : String) {ws : List WorkspaceFile} (h : GuardedReachableWs ws) :
      GuardedReachableWs (toggleOneWs fid ws)
  | toggleAll {ws : List WorkspaceFile} (h : GuardedReachableWs ws) :
      GuardedReachableWs (toggleAllWs ws)
  | stopReset {ws : List WorkspaceFile} (h : GuardedReachableWs ws) :
      GuardedReachableWs (stopResetWs ws)
  | start (fid : String) {ws : List WorkspaceFile} (h : GuardedReachableWs ws)
      (hg : ∀ f ∈ ws, f.id = fid → ¬f.status = FileStatus.completed) :
      GuardedReachableWs (setProcessingWs fid ws)
  | complete (fid : String) (g : Grouped) {ws : List WorkspaceFile}
      (h : GuardedReachableWs ws) : GuardedReachableWs (setCompletedWs fid g ws)
  | fail (fid : String) {ws : List WorkspaceFile} (h : GuardedReachableWs ws)
      (hg : ∀ f ∈ ws, f.id = fid → ¬f.status = FileStatus.completed) :
      GuardedReachableWs (setErrorWs fid ws)

/-- Half of the claimed invariant that really is unconditional: the only
write that ever sets status `completed` (`setCompletedWs`) also populates
`results`, and no write removes `results` while keeping the status
`completed`. -/
theorem completedInv_reachable {ws : List WorkspaceFile} (h : ReachableWs ws) :
    ∀ f ∈ ws, f.status = FileStatus.completed → f.results.isSome = true := by
  induction h with
  | init =>
    intro f hf
    simp at hf
  | split parts h ih =>
    intro f hf
    rcases List.mem_append.mp hf with hf | hf
    · exact ih f hf
    · rcases List.mem_map.mp hf with ⟨q, _, rfl⟩
      intro hc
      simp [mkWorkspacePart] at hc
  | toggleOne fid h ih =>
    intro f hf
    rcases List.mem_map.mp hf with ⟨g, hg, rfl⟩
    by_cases h1 : g.id = fid
    · by_cases h2 : g.status = FileStatus.completed
      · simpa [toggleOneWs, h1, h2] using ih g hg
      · simp [toggleOneWs, h1, h2]
    · simpa [toggleOneWs, h1] using ih g hg
  | @toggleAll ws2 h ih =>
    intro f hf
    unfold toggleAllWs at hf
    dsimp only at hf
    by_cases hl : (ws2.filter (fun f => !(f.status == FileStatus.completed))).length = 0
    · rw [if_pos hl] at hf
      exact ih f hf
    · rw [if_neg hl] at hf
      rcases List.mem_map.mp hf with ⟨g, hg, rfl⟩
      by_cases h2 : g.status = FileStatus.completed
      · simpa [h2] using ih g hg
      · simp [h2]
  | stopReset h ih =>
    intro f hf
    rcases List.mem_map.mp hf with ⟨g, hg, rfl⟩
    by_cases h2 : g.status = FileStatus.processing
    · intro hc
      simp [h2] at hc
    · simpa [h2] using ih g hg
  | start fid h ih =>
    intro f hf
    rcases List.mem_map.mp hf with ⟨g, hgm, rfl⟩
    by_cases h1 : g.id = fid
    · intro hc
      simp [h1] at hc
    · simpa [h1] using ih g hgm
  | complete fid gr h ih =>
    intro f hf
    rcases List.mem_map.mp hf with ⟨g, hgm, rfl⟩
    by_cases h1 : g.id = fid
    · intro _
      simp [h1]
    · simpa [h1] using ih g hgm
  | fail fid h ih =>
    intro f hf
    rcases List.mem_map.mp hf with ⟨g, hgm, rfl⟩
    by_cases h1 : g.id = fid
    · intro hc
      simp [h1] at hc
    · simpa [h1] using ih g hgm

/-- The inductive invariant of guarded executions: `completed` items carry
results, all other items carry none. -/
def StrongInv (ws : List WorkspaceFile) : Prop :=
  ∀ f ∈ ws, (f.status = FileStatus.completed → f.results.isSome = true)
    ∧ (¬f.status = FileStatus.completed → f.results = none)

theorem strongInv_guarded {ws : List WorkspaceFile} (h : GuardedReachableWs ws) :
    StrongInv ws := by
  induction h with
  | init =>
    intro f hf
    simp at hf
  | split parts h ih =>
    intro f hf
    rcases List.mem_append.mp hf with hf | hf
    · exact ih f hf
    · rcases List.mem_map.mp hf with ⟨q, _, rfl⟩
      exact ⟨fun hc => by simp [mkWorkspacePart] at hc, fun _ => rfl⟩
  | toggleOne fid h ih =>
    intro f hf
    rcases List.mem_map.mp hf with ⟨g, hg, rfl⟩
    by_cases h1 : g.id = fid
    · by_cases h2 : g.status = FileStatus.completed
      · simpa [toggleOneWs, h1, h2] using ih g hg
      · simpa [toggleOneWs, h1, h2] using ih g hg
    · simpa [toggleOneWs, h1] using ih g hg
  | @toggleAll ws2 h ih =>
    intro f hf
    unfold toggleAllWs at hf
    dsimp only at hf
    by_cases hl : (ws2.filter (fun f => !(f.status == FileStatus.completed))).length = 0
    · rw [if_pos hl] at hf
      exact ih f hf
    · rw [if_neg hl] at hf
      rcases List.mem_map.mp hf with ⟨g, hg, rfl⟩
      by_cases h2 : g.status = FileStatus.completed
      · simpa [h2] using ih g hg
      · simpa [h2] using ih g hg
  | stopReset h ih =>
    intro f hf
    rcases List.mem_map.mp hf with ⟨g, hg, rfl⟩
    by_cases h2 : g.status = FileStatus.processing
    · have hres : g.results = none := (ih g hg).2 (by simp [h2])
      exact ⟨fun hc => by simp [h2] at hc, fun _ => by simpa [h2] using hres⟩
    · simpa [h2] using ih g hg
  | start fid h hg ih =>
    intro f hf
    rcases List.mem_map.mp hf with ⟨g, hgm, rfl⟩
    by_cases h1 : g.id = fid
    · have hres : g.results = none := (ih g hgm).2 (hg g hgm h1)
      exact ⟨fun hc => by simp [h1] at hc, fun _ => by simpa [h1] using hres⟩
    · simpa [h1] using ih g hgm
  | complete fid gr h ih =>
    intro f hf
    rcases List.mem_map.mp hf with ⟨g, hgm, rfl⟩
    by_cases h1 : g.id = fid
    · exact ⟨fun _ => by simp [h1], fun hc => absurd (by simp [h1]) hc⟩
    · simpa [h1] using ih g hgm
  | fail fid h hg ih =>
    intro f hf
    rcases List.mem_map.mp hf with ⟨g, hgm, rfl⟩
    by_cases h1 : g.id = fid
    · have hres : g.results = none := (ih g hgm).2 (hg g hgm h1)
      exact ⟨fun hc => by simp [h1] at hc, fun _ => by simpa [h1] using hres⟩
    · simpa [h1] using ih g hgm

def c4IdA : String := "a"

def c4IdB : String := "b"

def c4Parts : List (String × String × Nat) :=
  [("a", "doc parte 1", 2), ("b", "doc parte 2", 3)]

def c4GroupedA : Grouped := [("ForoA", ["p1"])]

def c4GroupedB : Grouped := [("ForoB", ["p2"])]

/-- The workspace produced by a real interleaving: split into parts A and B
(both idle, selected); the batch snapshots [A, B] and starts A; the user
clicks "Analisar" on the still-idle B, whose task completes B with results;
A's batch task completes; the batch loop reaches its stale B entry and
starts B again — on the now-completed item, whose results survive the
processing write — and that rerun fails (e.g. the collaborator rejects),
writing status `error` while the stale results are still populated. -/
def c4CexWs : List WorkspaceFile :=
  setErrorWs c4IdB
    (setProcessingWs c4IdB
      (setCompletedWs c4IdA c4GroupedA
        (setCompletedWs c4IdB c4GroupedB
          (setProcessingWs c4IdB
            (setProcessingWs c4IdA
              ([] ++ c4Parts.map (fun q => mkWorkspacePart q.1 q.2.1 q.2.2)))))))

theorem c4CexWs_reachable : ReachableWs c4CexWs :=
  ReachableWs.fail c4IdB
    (ReachableWs.start c4IdB
      (ReachableWs.complete c4IdA c4GroupedA
        (ReachableWs.complete c4IdB c4GroupedB
          (ReachableWs.start c4IdB
            (ReachableWs.start c4IdA
              (ReachableWs.split c4Parts ReachableWs.init))))))

/-- C4 counterexample: the stale-snapshot interleaving described at
`c4CexWs` is reachable through the source's own workspace writes and ends
with item B in status `error` with its stale results still populated — the
claim's "status error implies results absent" is false of the program. -/
theorem c4_error_results_counterexample :
    ReachableWs c4CexWs
      ∧ (⟨c4IdB, "doc parte 2", 3, FileStatus.error, false,
            some c4GroupedB⟩ : WorkspaceFile) ∈ c4CexWs
      ∧ ¬(∀ f ∈ c4CexWs, f.status = FileStatus.error → f.results = none) :=
  ⟨c4CexWs_reachable, by decide, by decide⟩

/-- C4 (amended): in every reachable workspace state, status `completed`
implies the results field is populated (this half is unconditional); and
status `error` implies the results field is absent in exactly the
executions in which no analysis task is started on — and no failure is
recorded against — an already-completed item.  The unguarded interleaving
(batch's stale snapshot plus the mid-batch per-item button) can rerun a
completed item and, on failure, leave an `error` item with stale results
populated. -/
theorem c4_completed_error_results (ws : List WorkspaceFile) :
    (ReachableWs ws →
      ∀ f ∈ ws, f.status = FileStatus.completed → f.results.isSome = true)
    ∧ (GuardedReachableWs ws →
      ∀ f ∈ ws, (f.status = FileStatus.completed → f.results.isSome = true)
        ∧ (f.status = FileStatus.error → f.results = none)) := by
  constructor
  · intro h
    exact completedInv_reachable h
  · intro h f hf
    have hs := strongInv_guarded h f hf
    exact ⟨hs.1, fun he => hs.2 (by simp [he])⟩

def c4GuardedWs : List WorkspaceFile :=
  setCompletedWs c4IdA c4GroupedA
    (setProcessingWs c4IdA
      ([] ++ c4Parts.map (fun q => mkWorkspacePart q.1 q.2.1 q.2.2)))

theorem c4GuardedWs_reachable : GuardedReachableWs c4GuardedWs :=
  GuardedReachableWs.complete c4IdA c4GroupedA
    (GuardedReachableWs.start c4IdA
      (GuardedReachableWs.split c4Parts GuardedReachableWs.init) (by decide))

/-- Witness for C4: both halves of the amended theorem applied at concrete
reachable workspaces. -/
theorem c4_completed_error_results_witness :
    (ReachableWs c4CexWs
      ∧ (∀ f ∈ c4CexWs, f.status = FileStatus.completed → f.results.isSome = true))
    ∧ (GuardedReachableWs c4GuardedWs
      ∧ ∀ f ∈ c4GuardedWs,
          (f.status = FileStatus.completed → f.results.isSome = true)
          ∧ (f.status = FileStatus.error → f.results = none)) :=
  ⟨⟨c4CexWs_reachable,
    (c4_completed_error_results c4CexWs).1 c4CexWs_reachable⟩,
   ⟨c4GuardedWs_reachable,
    (c4_completed_error_results c4GuardedWs).2 c4GuardedWs_reachable⟩⟩

/-! ## C6: the sequential batch runner -/

theorem runBatchLoop_spec (envOf : WorkspaceFile → TaskEnv)
    (files : List WorkspaceFile) :
    ∀ s : AppState, ∃ k, k ≤ files.length
      ∧ (runBatchLoop envOf files s).2 = (files.map (·.id)).take k
      ∧ (runBatchLoop envOf files s).1 = (files.take k).foldl (batchStep envOf) s
      ∧ (∀ j < k, ((files.take j).foldl (batchStep envOf) s).isBatchStopped = false)
      ∧ (k < files.length →
          ((files.take k).foldl (batchStep envOf) s).isBatchStopped = true) := by
  induction files with
  | nil =>
    intro s
    exact ⟨0, le_rfl, rfl, rfl, fun j hj => absurd hj (by omega), by simp⟩
  | cons f rest ih =>
    intro s
    by_cases hs : s.isBatchStopped = true
    · refine ⟨0, Nat.zero_le _, ?_, ?_, by omega, fun _ => by simpa using hs⟩
      · simp [runBatchLoop, hs]
      · simp [runBatchLoop, hs]
    · have hs2 : s.isBatchStopped = false := by
        cases hsv : s.isBatchStopped
        · rfl
        · exact absurd hsv hs
      obtain ⟨k, hk, htr, hst, hflag, hstop⟩ := ih (batchStep envOf s f)
      refine ⟨k + 1, by simpa using Nat.succ_le_succ hk, ?_, ?_, ?_, ?_⟩
      · simp [runBatchLoop, hs2, htr]
      · simp [runBatchLoop, hs2, hst]
      · intro j hj
        cases j with
        | zero => simpa using hs2
        | succ j2 =>
          have := hflag j2 (by omega)
          simpa using this
      · intro hlt
        rw [List.length_cons] at hlt
        have := hstop (by omega)
        simpa using this

/-- C6: the sequential batch runner is a no-op when the selected
non-completed subset is empty or a batch is already running; otherwise the
attempted items are an initial segment, in workspace listing order, of the
selected non-completed items (so the trace is a sublist of the workspace id
listing), items run one at a time as a sequential fold of the per-item
pipeline, the batch stop flag is observed unset before each attempted item,
the run stops early only when the stop flag is observed set, and the final
state is the sequential fold over the attempted prefix followed by the
cleanup writes. -/
theorem c6_batch_runner (envOf : WorkspaceFile → TaskEnv) (s : AppState) :
    ((s.workspace.filter
        (fun f => f.selected && !(f.status == FileStatus.completed))).length = 0
      ∨ s.isSequentialRunning = true →
      analyzeBatchSequential envOf s = (s, []))
    ∧ ∃ k, k ≤ (s.workspace.filter
          (fun f => f.selected && !(f.status == FileStatus.completed))).length
      ∧ (analyzeBatchSequential envOf s).2
          = ((s.workspace.filter
              (fun f => f.selected && !(f.status == FileStatus.completed))).map
                (·.id)).take k
      ∧ List.Sublist (analyzeBatchSequential envOf s).2 (s.workspace.map (·.id))
      ∧ ((s.workspace.filter
            (fun f => f.selected && !(f.status == FileStatus.completed))).length = 0
          ∨ s.isSequentialRunning = true
          ∨ ((∀ j < k, (((s.workspace.filter
                  (fun f => f.selected && !(f.status == FileStatus.completed))).take j).foldl
                  (batchStep envOf)
                  { s with isBatchStopped := false,
                           isSequentialRunning := true }).isBatchStopped = false)
            ∧ (k < (s.workspace.filter
                  (fun f => f.selected && !(f.status == FileStatus.completed))).length →
                (((s.workspace.filter
                  (fun f => f.selected && !(f.status == FileStatus.completed))).take k).foldl
                  (batchStep envOf)
                  { s with isBatchStopped := false,
                           isSequentialRunning := true }).isBatchStopped = true)
            ∧ (analyzeBatchSequential envOf s).1
                = { ((s.workspace.filter
                    (fun f => f.selected && !(f.status == FileStatus.completed))).take k).foldl
                    (batchStep envOf)
                    { s with isBatchStopped := false, isSequentialRunning := true } with
                    isSequentialRunning := false, loading := false,
                    progress := ⟨0, 0, Phase.idle⟩ })) := by
  have hnoop : (s.workspace.filter
        (fun f => f.selected && !(f.status == FileStatus.completed))).length = 0
      ∨ s.isSequentialRunning = true →
      analyzeBatchSequential envOf s = (s, []) := by
    intro hno
    unfold analyzeBatchSequential
    dsimp only
    rcases hno with h | h
    · simp [h]
    · simp [h]
  refine ⟨hnoop, ?_⟩
  by_cases hno : (s.workspace.filter
      (fun f => f.selected && !(f.status == FileStatus.completed))).length = 0
      ∨ s.isSequentialRunning = true
  · refine ⟨0, Nat.zero_le _, ?_, ?_, ?_⟩
    · rw [hnoop hno]
      simp
    · rw [hnoop hno]
      simp
    · rcases hno with h | h
      · exact Or.inl h
      · exact Or.inr (Or.inl h)
  · push_neg at hno
    have h1 : ¬(s.workspace.filter
        (fun f => f.selected && !(f.status == FileStatus.completed))).length = 0 := hno.1
    have h2 : s.isSequentialRunning = false := by
      cases hsv : s.isSequentialRunning
      · rfl
      · exact absurd hsv hno.2
    obtain ⟨k, hk, htr, hst, hflag, hstop⟩ :=
      runBatchLoop_spec envOf
        (s.workspace.filter (fun f => f.selected && !(f.status == FileStatus.completed)))
        { s with isBatchStopped := false, isSequentialRunning := true }
    have hrun : analyzeBatchSequential envOf s
        = ({ (runBatchLoop envOf
              (s.workspace.filter
                (fun f => f.selected && !(f.status == FileStatus.completed)))
              { s with isBatchStopped := false, isSequentialRunning := true }).1 with
            isSequentialRunning := false, loading := false,
            progress := ⟨0, 0, Phase.idle⟩ },
           (runBatchLoop envOf
              (s.workspace.filter
                (fun f => f.selected && !(f.status == FileStatus.completed)))
              { s with isBatchStopped := false, isSequentialRunning := true }).2) := by
      unfold analyzeBatchSequential
      dsimp only
      simp [h1, h2]
    refine ⟨k, hk, ?_, ?_, Or.inr (Or.inr ⟨hflag, hstop, ?_⟩)⟩
    · rw [hrun]
      exact htr
    · rw [hrun]
      dsimp only
      rw [htr]
      exact (List.take_sublist _ _).trans
        (List.Sublist.map _ (List.filter_sublist _))
    · rw [hrun]
      dsimp only
      rw [hst]

def c6State : AppState :=
  { sampleState with workspace := [wfIdleUnsel] }

/-- Witness for C6: the no-op part of the theorem applied at a concrete
state with no selected pending item. -/
theorem c6_batch_runner_witness :
    ((c6State.workspace.filter
        (fun f => f.selected && !(f.status == FileStatus.completed))).length = 0
      ∨ c6State.isSequentialRunning = true)
      ∧ analyzeBatchSequential
          (fun _ => ⟨sampleRaw, some [], "e", "h", 0, [], []⟩) c6State
          = (c6State, []) :=
  ⟨by decide,
   (c6_batch_runner (fun _ => ⟨sampleRaw, some [], "e", "h", 0, [], []⟩) c6State).1
     (by decide)⟩

end LegalPDF
